import Mathlib

/-!
Shallow embedding of the lodash-style utility object `_` defined in the
repository file that builds a JavaScript utility library (string, number,
array, object helpers, function combinators, memoize / flatten / times /
deepClone extensions).

Modelling conventions:
* JavaScript values are modelled by the inductive type `JsValue`.  Numbers
  are modelled by rationals, with `NaN` as a separate constructor (its
  `typeof` is still reported as "number"); float rounding and infinities
  are outside the model.  Host functions reachable through the prototype
  chain of a plain object are modelled by the `builtin` constructor.
* Character case conversion (`toLowerCase` / `toUpperCase`) is modelled on
  the ASCII range, the identity elsewhere.
* Plain objects are association lists of own enumerable properties in
  insertion order (integer-like key reordering is not modelled; the claims
  only use non-index string keys).
-/

set_option autoImplicit false

/-- A JavaScript runtime value, as used by the utility library. -/
inductive JsValue where
  | undefined
  | null
  | nan
  | bool (b : Bool)
  | num (q : ℚ)
  | str (s : String)
  | arr (elems : List JsValue)
  | obj (fields : List (String × JsValue))
  | date (ms : Int)
  | builtin (name : String)

namespace JsValue

/-- The JavaScript `typeof` operator on modelled values. -/
def typeOf : JsValue → String
  | undefined => "undefined"
  | null => "object"
  | nan => "number"
  | bool _ => "boolean"
  | num _ => "number"
  | str _ => "string"
  | arr _ => "object"
  | obj _ => "object"
  | date _ => "object"
  | builtin _ => "function"

/-- The `Array.isArray` test. -/
def isArray : JsValue → Bool
  | arr _ => true
  | _ => false

mutual

/-- The SameValueZero comparison used by `Array.prototype.includes` and by
`Set` membership, on modelled values.  Note that `NaN` matches `NaN`
there, unlike `===`.  Two structurally equal objects compare equal here
even though the engine would distinguish their references; the claims
never rely on reference identity. -/
def sameValue : JsValue → JsValue → Bool
  | nan, nan => true
  | undefined, undefined => true
  | null, null => true
  | bool a, bool b => a == b
  | num a, num b => a == b
  | str a, str b => a == b
  | date a, date b => a == b
  | builtin a, builtin b => a == b
  | arr a, arr b => sameElems a b
  | obj a, obj b => sameOwnProps a b
  | _, _ => false

/-- Lockstep `sameValue` over array elements. -/
def sameElems : List JsValue → List JsValue → Bool
  | [], [] => true
  | _ :: _, [] => false
  | [], _ :: _ => false
  | a :: as, b :: bs => sameValue a b && sameElems as bs

/-- Lockstep key and `sameValue` comparison over property lists. -/
def sameOwnProps : List (String × JsValue) → List (String × JsValue) → Bool
  | [], [] => true
  | _ :: _, [] => false
  | [], _ :: _ => false
  | f :: fs, g :: gs => f.1 == g.1 && sameValue f.2 g.2 && sameOwnProps fs gs

end

instance : BEq JsValue := ⟨sameValue⟩

end JsValue

/-- ASCII lower-casing of one character, the model of `toLowerCase`. -/
def asciiLower (c : Char) : Char :=
  if 'A' ≤ c ∧ c ≤ 'Z' then Char.ofNat (c.toNat + 32) else c

/-- ASCII upper-casing of one character, the model of `toUpperCase`. -/
def asciiUpper (c : Char) : Char :=
  if 'a' ≤ c ∧ c ≤ 'z' then Char.ofNat (c.toNat - 32) else c

/-- Membership in the character class `[a-z0-9]` used by the regular
expression inside `isPalindrome`. -/
def isLowerAlnum (c : Char) : Bool :=
  ('a' ≤ c && c ≤ 'z') || ('0' ≤ c && c ≤ '9')

/-- A character is alphanumeric when its ASCII lower-casing lands in
`[a-z0-9]`; this is the alphanumeric class of the model. -/
def isAlnumChar (c : Char) : Bool :=
  isLowerAlnum (asciiLower c)

/-- Membership in `[a-z]`. -/
def isAsciiLowerAlpha (c : Char) : Bool :=
  'a' ≤ c && c ≤ 'z'

/-- Membership in `[A-Z]`. -/
def isAsciiUpperAlpha (c : Char) : Bool :=
  'A' ≤ c && c ≤ 'Z'

/-!  The namespace `U` embeds the utility object `_` of the source file;
each definition keeps the property name it has on `_`. -/
namespace U

open JsValue

/-- Embeds `_.capitalize`: empty result unless the input is a non-empty string;
otherwise the first character upper-cased plus the lower-cased rest. -/
def capitalize (v : JsValue) : JsValue :=
  match v with
  | .str s =>
    match s.toList with
    | [] => .str ""
    | c :: cs => .str (String.mk (asciiUpper c :: cs.map asciiLower))
  | _ => .str ""

/-- Embeds `String.prototype.slice` restricted to start index 0: a negative end
index counts from the end of the string. -/
def sliceToEnd (l : List Char) (e : Int) : List Char :=
  if e < 0 then l.take ((l.length : Int) + e).toNat else l.take e.toNat

/-- Embeds `_.truncate`: strings at most `len` long pass through; longer ones are
cut to `len - suffix.length` characters and the suffix appended. -/
def truncate (v : JsValue) (len : Int := 30) (suffix : String := "...") : JsValue :=
  match v with
  | .str s =>
    if (s.length : Int) ≤ len then .str s
    else .str (String.mk (sliceToEnd s.toList (len - (suffix.length : Int))) ++ suffix)
  | _ => .str ""

/-- First rewrite of `_.kebabCase`: the global regular expression that puts
a hyphen between a lowercase letter and the uppercase letter after it. -/
def kebabHyphens : List Char → List Char
  | [] => []
  | [c] => [c]
  | a :: b :: rest =>
    if isAsciiLowerAlpha a && isAsciiUpperAlpha b then
      a :: '-' :: kebabHyphens (b :: rest)
    else
      a :: kebabHyphens (b :: rest)

/-- Worker for the whitespace rewrite of `_.kebabCase`; the flag records
whether the previous character was inside a whitespace run, so that each
maximal run emits exactly one hyphen. -/
def collapseWsGo : Bool → List Char → List Char
  | _, [] => []
  | inRun, c :: rest =>
    if c.isWhitespace then
      (if inRun then [] else ['-']) ++ collapseWsGo true rest
    else
      c :: collapseWsGo false rest

/-- Second rewrite of `_.kebabCase`: every maximal whitespace run becomes a
single hyphen (the global replacement of a whitespace-run pattern). -/
def collapseWhitespace (l : List Char) : List Char :=
  collapseWsGo false l

/-- Embeds `_.kebabCase`: hyphen insertion at case boundaries, whitespace
collapsing, then lower-casing. -/
def kebabCase (v : JsValue) : JsValue :=
  match v with
  | .str s => .str (String.mk ((collapseWhitespace (kebabHyphens s.toList)).map asciiLower))
  | _ => .str ""

/-- Embeds `_.isPalindrome`: non-strings are rejected; a string is lower-cased,
stripped to `[a-z0-9]`, and compared with its own reverse. -/
def isPalindrome (v : JsValue) : JsValue :=
  match v with
  | .str s =>
    .bool (decide ((s.toList.map asciiLower).filter isLowerAlnum
      = ((s.toList.map asciiLower).filter isLowerAlnum).reverse))
  | _ => .bool false

/-- Embeds `_.clamp` on numbers; JavaScript numbers are modelled by rationals
(`NaN` and the infinities are outside this numeric model). -/
def clamp (num lower upper : ℚ) : ℚ :=
  min (max num lower) upper

/-- Decimal rendering of a modelled number.  Integers render exactly as in
JavaScript; for non-integral rationals an injective placeholder is used
(shortest round-trip float printing is outside the model, and no claim
depends on the rendering of a non-integral number). -/
def numRepr (q : ℚ) : String :=
  if q.den = 1 then toString q.num else toString q.num ++ "/" ++ toString q.den

/-- String coercion of primitive values, used by the string branch of
the `+` operator.  Object operands (whose coercion goes through
`ToPrimitive`) are approximated by their type name; no claim exercises
that path. -/
def jsToString : JsValue → String
  | .undefined => "undefined"
  | .null => "null"
  | .nan => "NaN"
  | .bool b => cond b "true" "false"
  | .num q => numRepr q
  | .str s => s
  | v => v.typeOf

/-- Numeric coercion of a value for the `+` operator; `none` is `NaN`. -/
def jsToNumber : JsValue → Option ℚ
  | .null => some 0
  | .bool b => some (cond b 1 0)
  | .num q => some q
  | .date t => some (t : ℚ)
  | _ => none

/-- The JavaScript binary `+` as used by the reducer inside `_.mean`:
string operands concatenate, otherwise both sides are coerced to numbers
and added, `NaN` propagating.  Array and plain-object operands (which JS
first turns into strings via `ToPrimitive`) are approximated by the
numeric branch; no claim exercises them. -/
def jsAdd (a b : JsValue) : JsValue :=
  match a, b with
  | .str s, y => .str (s ++ jsToString y)
  | x, .str s => .str (jsToString x ++ s)
  | x, y =>
    match jsToNumber x, jsToNumber y with
    | some p, some q => .num (p + q)
    | _, _ => .nan

/-- Embeds `_.mean`: `NaN` for non-arrays and for the empty array, otherwise the
reduced sum divided by the length.  A sum that is not a number (possible
only when the array holds non-numeric values) divides to `NaN`; the
JavaScript parse of numeric strings on that degenerate path is not
modelled, and no claim exercises it. -/
def mean (v : JsValue) : JsValue :=
  match v with
  | .arr [] => .nan
  | .arr elems =>
    match elems.foldl jsAdd (.num 0) with
    | .num s => .num (s / (elems.length : ℚ))
    | _ => .nan
  | _ => .nan

/-- Embeds `_.last`: `undefined` for non-arrays and for the empty array, else the
final element. -/
def last (v : JsValue) : JsValue :=
  match v with
  | .arr xs => xs.getLast?.getD .undefined
  | _ => .undefined

/-- Embeds `_.includes`: `false` for non-arrays, else SameValueZero membership. -/
def includes (v x : JsValue) : JsValue :=
  match v with
  | .arr xs => .bool (xs.contains x)
  | _ => .bool false

/-- Embeds `_.without`: empty array for non-arrays, else the elements that are not
among the excluded values. -/
def without (v : JsValue) (values : List JsValue) : JsValue :=
  match v with
  | .arr xs => .arr (xs.filter (fun item => !(values.contains item)))
  | _ => .arr []

/-- The slicing loop of `_.chunk` on plain lists.  The source loop advances
its index by `size` and pushes `arr.slice(i, i + size)`; this recursion is
extensionally that loop for every `size ≥ 1` (for `size = 0` the source
loop does not terminate, and every claim restricts to positive sizes). -/
def chunkCore (size : Nat) : List JsValue → List (List JsValue)
  | [] => []
  | x :: xs => (x :: xs.take (size - 1)) :: chunkCore size (xs.drop (size - 1))
termination_by l => l.length
decreasing_by
  simp only [List.length_cons]
  have := List.length_drop (size - 1) xs
  omega

/-- Embeds `_.chunk`: empty array for non-arrays, else the chunked array. -/
def chunk (v : JsValue) (size : Nat := 1) : JsValue :=
  match v with
  | .arr xs => .arr ((chunkCore size xs).map .arr)
  | _ => .arr []

/-- The order-preserving deduplication performed by `new Set`, keeping the
first occurrence of each value (SameValueZero comparison). -/
def dedupKeepFirst : List JsValue → List JsValue
  | [] => []
  | x :: xs => x :: dedupKeepFirst (xs.filter (fun y => !(JsValue.sameValue x y)))
termination_by l => l.length
decreasing_by
  simp only [List.length_cons]
  have := List.length_filter_le (fun y => !(JsValue.sameValue x y)) xs
  omega

/-- Embeds `_.unique`: empty array for non-arrays, else spread of `new Set`. -/
def unique (v : JsValue) : JsValue :=
  match v with
  | .arr xs => .arr (dedupKeepFirst xs)
  | _ => .arr []

/-- The guard shared by the four object helpers: the input is null, or its
`typeof` is not object. -/
def notAnObject : JsValue → Bool
  | .null => true
  | .obj _ => false
  | .arr _ => false
  | .date _ => false
  | _ => true

/-- The properties that every plain object inherits from
`Object.prototype`; the `in` operator finds them on any plain object. -/
def protoProps : List String :=
  ["constructor", "hasOwnProperty", "isPrototypeOf", "propertyIsEnumerable",
   "toLocaleString", "toString", "valueOf"]

/-- The own enumerable string keys of a value (`Object.keys`), in
insertion order for plain objects and index order for arrays. -/
def jsOwnKeys : JsValue → List String
  | .obj fs => fs.map Prod.fst
  | .arr xs => (List.range xs.length).map toString
  | _ => []

/-- Property read `v[key]`: the own property when present, else the
inherited `Object.prototype` member for plain objects (array and date
prototype members are not modelled; no claim reads them). -/
def getProp (v : JsValue) (key : String) : JsValue :=
  match v with
  | .obj fs =>
    match fs.lookup key with
    | some x => x
    | none => if protoProps.contains key then .builtin key else .undefined
  | .arr xs =>
    if key == "length" then .num (xs.length : ℚ)
    else
      match key.toNat? with
      | some i => (xs.get? i).getD .undefined
      | none => .undefined
  | _ => .undefined

/-- The JavaScript `in` operator: own properties or properties found on
the prototype chain.  On a plain object it sees the own keys and the
`Object.prototype` members. -/
def jsIn (key : String) (v : JsValue) : Bool :=
  match v with
  | .obj fs => (fs.map Prod.fst).contains key || protoProps.contains key
  | .arr xs =>
    key == "length"
      || (match key.toNat? with
          | some i => decide (i < xs.length)
          | none => false)
      || protoProps.contains key
  | _ => false

/-- The assignment `result[key] = x` on an accumulated property list:
overwrite an existing binding in place, else append a fresh one. -/
def setProp : List (String × JsValue) → String → JsValue → List (String × JsValue)
  | [], k, x => [(k, x)]
  | (k2, y) :: rest, k, x =>
    if k2 == k then (k2, x) :: rest else (k2, y) :: setProp rest k x

/-- Embeds `_.keys`: empty array for null and non-objects, else the own
enumerable keys as strings. -/
def keys (v : JsValue) : JsValue :=
  if notAnObject v then .arr [] else .arr ((jsOwnKeys v).map .str)

/-- Embeds `_.values`: empty array for null and non-objects, else the own
enumerable values. -/
def values (v : JsValue) : JsValue :=
  if notAnObject v then .arr []
  else
    match v with
    | .obj fs => .arr (fs.map Prod.snd)
    | .arr xs => .arr xs
    | _ => .arr []

/-- Embeds `_.pick`: empty object for null and non-objects; otherwise the reduce
over the requested keys, keeping `key` when `key in obj` holds (note this
membership test consults the prototype chain). -/
def pick (v : JsValue) (ks : List String) : JsValue :=
  if notAnObject v then .obj []
  else .obj (ks.foldl (fun result key =>
    if jsIn key v then setProp result key (getProp v key) else result) [])

/-- Embeds `_.omit`: empty object for null and non-objects; otherwise the reduce
over `Object.keys(obj)`, keeping the own keys not listed in `ks`. -/
def «omit» (v : JsValue) (ks : List String) : JsValue :=
  if notAnObject v then .obj []
  else .obj ((jsOwnKeys v).foldl (fun result key =>
    if ks.contains key then result else setProp result key (getProp v key)) [])

/-- JSON string quoting: double quotes around the text, with quote and
backslash escaped (control-character escapes are not modelled; no claim
serialises a control character). -/
def jsonQuote (s : String) : String :=
  "\"" ++ String.mk (s.toList.flatMap (fun c =>
    if c = '"' || c = '\\' then ['\\', c] else [c])) ++ "\""

/-- The serialisation of a `Date` inside `JSON.stringify`: a quoted
timestamp string, an injective placeholder for the ISO-8601 rendering (no
claim depends on the concrete digits). -/
def dateJson (ms : Int) : String :=
  jsonQuote ("date:" ++ toString ms)

/-- Embeds `JSON.stringify` on modelled values; `none` is the `undefined` result
(for `undefined` itself and for functions).  Inside arrays such elements
serialise as `null` — the collision the memoize cache key inherits — and
inside objects the property is skipped. -/
def toJson : JsValue → Option String
  | .undefined => none
  | .builtin _ => none
  | .null => some "null"
  | .nan => some "null"
  | .bool b => some (cond b "true" "false")
  | .num q => some (numRepr q)
  | .str s => some (jsonQuote s)
  | .date t => some (dateJson t)
  | .arr xs =>
    some ("[" ++ String.intercalate ","
      (xs.attach.map (fun x => (toJson x.1).getD "null")) ++ "]")
  | .obj fs =>
    some ("\x7b" ++ String.intercalate ","
      ((fs.attach.map (fun p =>
        (toJson p.1.2).map (fun j => jsonQuote p.1.1 ++ ":" ++ j))).reduceOption)
      ++ "\x7d")
decreasing_by
  · have := List.sizeOf_lt_of_mem x.2
    simp only [JsValue.arr.sizeOf_spec]
    omega
  · have := List.sizeOf_lt_of_mem p.2
    rcases p with ⟨⟨k, v⟩, hv⟩
    simp only [JsValue.obj.sizeOf_spec] at *
    simp only [Prod.mk.sizeOf_spec] at this
    omega

/-- The cache key `JSON.stringify(args)` computed by the `_.memoize`
wrapper (the argument list always serialises, being an array). -/
def argsKey (args : List JsValue) : String :=
  (toJson (.arr args)).getD "undefined"

/-- One run of the wrapper returned by `_.memoize(fn)` over a list of
calls, threading the `Map` cache as an association list keyed by
`argsKey` (fresh entries are prepended; the key is absent when they are).
Returns the value each call produced together with the argument lists on
which the underlying `fn` was actually invoked, in call order. -/
def memoRun (fn : List JsValue → JsValue) :
    List (String × JsValue) → List (List JsValue) →
    List JsValue × List (List JsValue)
  | _, [] => ([], [])
  | cache, args :: rest =>
    match cache.lookup (argsKey args) with
    | some v =>
      let r := memoRun fn cache rest
      (v :: r.1, r.2)
    | none =>
      let v := fn args
      let r := memoRun fn ((argsKey args, v) :: cache) rest
      (v :: r.1, args :: r.2)

/-- A value produced by the `_.curry` wrapper: either the underlying
function has fired (its result), or a closure holding the arguments
accumulated so far. -/
inductive CurryVal where
  | value (v : JsValue)
  | closure (acc : List JsValue)

/-- One call of the inner `curried` function of `_.curry(fn)` for a
function of declared arity `arity`: the fresh arguments extend the
accumulator, and `fn` fires exactly when the accumulated count reaches
the arity. -/
def curriedCall (arity : Nat) (fn : List JsValue → JsValue)
    (acc args : List JsValue) : CurryVal :=
  let a := acc ++ args
  if arity ≤ a.length then .value (fn a) else .closure a

/-- Successive application of a list of calls to a curry value.  Calling a
fired result (a non-function) is a type error, modelled by `none`. -/
def applyCalls (arity : Nat) (fn : List JsValue → JsValue) :
    CurryVal → List (List JsValue) → Option CurryVal
  | cv, [] => some cv
  | .closure acc, c :: cs => applyCalls arity fn (curriedCall arity fn acc c) cs
  | .value _, _ :: _ => none

/-- The events fired by the wrapper returned by `_.debounce(func, wait)`
when it is called at the given (time, argument) sequence, times
non-decreasing.  Each call clears the pending timer and arms a new one
`wait` after itself; a pending timer fires only when the next call
arrives no earlier than its deadline, and the last call always leaves its
timer to fire.  Returns the (time, argument) pairs at which `func` runs. -/
def debounceFires {α : Type} (wait : Nat) : List (Nat × α) → List (Nat × α)
  | [] => []
  | [(t, a)] => [(t + wait, a)]
  | (t, a) :: (t2, a2) :: rest =>
    (if t + wait ≤ t2 then [(t + wait, a)] else [])
      ++ debounceFires wait ((t2, a2) :: rest)

mutual

/-- Embeds `_.deepClone`: primitives pass through, a date becomes a fresh date
with the same timestamp, arrays and plain objects are rebuilt from deep
clones of their parts (own enumerable properties, via the
`hasOwnProperty` filter over `for..in`). -/
def deepClone : JsValue → JsValue
  | .undefined => .undefined
  | .null => .null
  | .nan => .nan
  | .bool b => .bool b
  | .num q => .num q
  | .str s => .str s
  | .builtin n => .builtin n
  | .date t => .date t
  | .arr xs => .arr (deepCloneList xs)
  | .obj fs => .obj (deepCloneFields fs)

/-- Elementwise `_.deepClone` over an array (its `map`). -/
def deepCloneList : List JsValue → List JsValue
  | [] => []
  | x :: xs => deepClone x :: deepCloneList xs

/-- Propertywise `_.deepClone` over an object (its key loop). -/
def deepCloneFields : List (String × JsValue) → List (String × JsValue)
  | [] => []
  | (k, v) :: fs => (k, deepClone v) :: deepCloneFields fs

end

end U

/-! ## Lemmas about the chunking loop -/

theorem chunkCore_cons (n : Nat) (x : JsValue) (xs : List JsValue) :
    U.chunkCore n (x :: xs) = (x :: xs.take (n - 1)) :: U.chunkCore n (xs.drop (n - 1)) := by
  simp [U.chunkCore]

theorem chunkCore_flatten (n : Nat) (xs : List JsValue) :
    (U.chunkCore n xs).flatten = xs := by
  induction xs using U.chunkCore.induct n with
  | case1 => simp [U.chunkCore]
  | case2 x xs ih => simp [chunkCore_cons, ih]

theorem chunkCore_eq_nil_iff (n : Nat) (xs : List JsValue) :
    U.chunkCore n xs = [] ↔ xs = [] := by
  cases xs with
  | nil => simp [U.chunkCore]
  | cons x rest => simp [chunkCore_cons]

theorem chunkCore_dropLast_length (n : Nat) (hn : 0 < n) (xs : List JsValue) :
    ∀ c ∈ (U.chunkCore n xs).dropLast, c.length = n := by
  induction xs using U.chunkCore.induct n with
  | case1 => simp [U.chunkCore]
  | case2 x rest ih =>
    intro c hc
    rw [chunkCore_cons] at hc
    rcases em (U.chunkCore n (rest.drop (n - 1)) = []) with hnil | hne
    · rw [hnil] at hc
      simp at hc
    · rw [List.dropLast_cons_of_ne_nil hne] at hc
      rcases List.mem_cons.mp hc with rfl | hmem
      · have hrest : rest.drop (n - 1) ≠ [] := by
          intro h0
          exact hne ((chunkCore_eq_nil_iff n _).mpr h0 ▸ rfl)
        have : n - 1 < rest.length := by
          by_contra hlt
          exact hrest (List.drop_eq_nil_of_le (by omega))
        simp [List.length_take]
        omega
      · exact ih c hmem

theorem chunkCore_getLast_length (n : Nat) (hn : 0 < n) (xs : List JsValue) (hxs : xs ≠ []) :
    1 ≤ ((U.chunkCore n xs).getLast?.getD []).length ∧
      ((U.chunkCore n xs).getLast?.getD []).length ≤ n := by
  induction xs using U.chunkCore.induct n with
  | case1 => exact absurd rfl hxs
  | case2 x rest ih =>
    rw [chunkCore_cons]
    rcases em (U.chunkCore n (rest.drop (n - 1)) = []) with hnil | hne
    · rw [hnil]
      simp [List.length_take]
      omega
    · cases hc : U.chunkCore n (rest.drop (n - 1)) with
      | nil => exact absurd hc hne
      | cons y ys =>
        rw [List.getLast?_cons_cons]
        rw [← hc]
        have hrest : rest.drop (n - 1) ≠ [] := fun h0 =>
          hne (by rw [h0]; simp [U.chunkCore])
        exact ih hrest

/-- C4: for every array `arr` and positive chunk size `n`, `_.chunk(arr, n)`
is the chunk list of the slicing loop; its chunks concatenated in order
give back `arr`, every chunk except possibly the last has length exactly
`n`, and for non-empty `arr` the last chunk has between 1 and `n`
elements. -/
theorem chunk_concat_and_sizes (xs : List JsValue) (n : Nat) (h : 0 < n) :
    U.chunk (JsValue.arr xs) n = JsValue.arr ((U.chunkCore n xs).map JsValue.arr)
    ∧ (U.chunkCore n xs).flatten = xs
    ∧ (∀ c ∈ (U.chunkCore n xs).dropLast, c.length = n)
    ∧ (xs ≠ [] →
        1 ≤ ((U.chunkCore n xs).getLast?.getD []).length ∧
        ((U.chunkCore n xs).getLast?.getD []).length ≤ n) :=
  ⟨rfl, chunkCore_flatten n xs, chunkCore_dropLast_length n h xs,
    fun hxs => chunkCore_getLast_length n h xs hxs⟩

/-- Witness for C4 at `arr = [1, 2, 3]`, `n = 2`. -/
theorem chunk_concat_and_sizes_witness :
    0 < 2 ∧
      (U.chunk (JsValue.arr [JsValue.num 1, JsValue.num 2, JsValue.num 3]) 2
          = JsValue.arr ((U.chunkCore 2 [JsValue.num 1, JsValue.num 2, JsValue.num 3]).map JsValue.arr)
        ∧ (U.chunkCore 2 [JsValue.num 1, JsValue.num 2, JsValue.num 3]).flatten
            = [JsValue.num 1, JsValue.num 2, JsValue.num 3]
        ∧ (∀ c ∈ (U.chunkCore 2 [JsValue.num 1, JsValue.num 2, JsValue.num 3]).dropLast,
            c.length = 2)
        ∧ ([JsValue.num 1, JsValue.num 2, JsValue.num 3] ≠ [] →
            1 ≤ ((U.chunkCore 2 [JsValue.num 1, JsValue.num 2, JsValue.num 3]).getLast?.getD []).length ∧
            ((U.chunkCore 2 [JsValue.num 1, JsValue.num 2, JsValue.num 3]).getLast?.getD []).length ≤ 2)) :=
  ⟨by norm_num, chunk_concat_and_sizes [JsValue.num 1, JsValue.num 2, JsValue.num 3] 2 (by norm_num)⟩

/-- C9: for rationals with `lo ≤ hi`, `_.clamp(n, lo, hi)` lands in
`[lo, hi]`, and equals `n` whenever `n` already lies in the interval. -/
theorem clamp_in_bounds (n lo hi : ℚ) (h : lo ≤ hi) :
    lo ≤ U.clamp n lo hi ∧ U.clamp n lo hi ≤ hi
      ∧ (lo ≤ n → n ≤ hi → U.clamp n lo hi = n) := by
  unfold U.clamp
  exact ⟨le_min (le_max_right n lo) h, min_le_right _ _,
    fun h1 h2 => by rw [max_eq_left h1, min_eq_left h2]⟩

/-- Witness for C9 at `n = 5`, `lo = 0`, `hi = 2`. -/
theorem clamp_in_bounds_witness :
    (0 : ℚ) ≤ 2 ∧ ((0 : ℚ) ≤ U.clamp 5 0 2 ∧ U.clamp 5 0 2 ≤ 2
      ∧ ((0 : ℚ) ≤ 5 → (5 : ℚ) ≤ 2 → U.clamp 5 0 2 = 5)) :=
  ⟨by norm_num, clamp_in_bounds 5 0 2 (by norm_num)⟩

/-! ## Memoization -/

theorem memoRun_all_hits (fn : List JsValue → JsValue) (cache : List (String × JsValue))
    (a : List JsValue) (v : JsValue) (calls : List (List JsValue))
    (hall : ∀ c ∈ calls, c = a) (hhit : cache.lookup (U.argsKey a) = some v) :
    U.memoRun fn cache calls = (calls.map (fun _ => v), []) := by
  induction calls with
  | nil => rfl
  | cons c rest ih =>
    have hc : c = a := hall c (List.mem_cons_self c rest)
    subst hc
    simp [U.memoRun, hhit, ih (fun x hx => hall x (List.mem_cons_of_mem _ hx))]

/-- C1: when the wrapper built by `_.memoize(fn)` is called two or more
times, every call carrying an argument list structurally equal to `a`,
the underlying function is invoked exactly once, on `a`, and every call
returns the value of that single invocation (the modelled `fn` is a pure
Lean function). -/
theorem memoize_computes_once (fn : List JsValue → JsValue) (a : List JsValue)
    (calls : List (List JsValue)) (hlen : 2 ≤ calls.length)
    (hall : ∀ c ∈ calls, c = a) :
    (U.memoRun fn [] calls).2 = [a]
      ∧ ∀ r ∈ (U.memoRun fn [] calls).1, r = fn a := by
  cases calls with
  | nil => simp at hlen
  | cons c rest =>
    have hc : c = a := hall c (List.mem_cons_self c rest)
    subst hc
    have hrest : ∀ x ∈ rest, x = c := fun x hx => hall x (List.mem_cons_of_mem _ hx)
    have hhit : ((U.argsKey c, fn c) :: ([] : List (String × JsValue))).lookup (U.argsKey c)
        = some (fn c) := by
      simp [List.lookup]
    have hrun := memoRun_all_hits fn ((U.argsKey c, fn c) :: []) c (fn c) rest hrest hhit
    simp [U.memoRun, List.lookup, hrun]

/-- Witness for C1: two calls with the argument list `[2]`. -/
theorem memoize_computes_once_witness :
    2 ≤ ([[JsValue.num 2], [JsValue.num 2]] : List (List JsValue)).length ∧
      ((U.memoRun (fun _ => JsValue.num 7) [] [[JsValue.num 2], [JsValue.num 2]]).2
          = [[JsValue.num 2]]
        ∧ ∀ r ∈ (U.memoRun (fun _ => JsValue.num 7) [] [[JsValue.num 2], [JsValue.num 2]]).1,
            r = JsValue.num 7) :=
  ⟨by simp, memoize_computes_once (fun _ => JsValue.num 7) [JsValue.num 2]
    [[JsValue.num 2], [JsValue.num 2]] (by simp) (by simp)⟩

/-- C8 counterexample: the argument lists `[null]` and `[undefined]` are
structurally different yet serialise to the same cache key, so the claim
that structurally different argument lists always get distinct keys is
false. -/
theorem memoize_key_collision_cex :
    U.argsKey [JsValue.null] = U.argsKey [JsValue.undefined]
      ∧ [JsValue.null] ≠ [JsValue.undefined] :=
  ⟨by simp [U.argsKey, U.toJson], by simp⟩

/-- C8 as amended: the serialisation does not distinguish every pair of
structurally different argument lists; in particular a call with
`[undefined]` after a call with `[null]` hits the cache entry of the
latter, so the two calls share one entry and the underlying function runs
only on `[null]`. -/
theorem memoize_collision_shares_entry (fn : List JsValue → JsValue) :
    U.memoRun fn [] [[JsValue.null], [JsValue.undefined]]
      = ([fn [JsValue.null], fn [JsValue.null]], [[JsValue.null]]) := by
  have hk : U.argsKey [JsValue.undefined] = U.argsKey [JsValue.null] := by
    simp [U.argsKey, U.toJson]
  simp [U.memoRun, List.lookup, hk]

/-! ## Currying -/

theorem applyCalls_complete (n : Nat) (fn : List JsValue → JsValue) (args : List JsValue) :
    ∀ (parts : List (List JsValue)) (acc : List JsValue),
      (∀ p ∈ parts, p ≠ []) → acc ++ parts.flatten = args → args.length = n →
      parts ≠ [] → acc.length < n →
      U.applyCalls n fn (U.CurryVal.closure acc) parts
        = some (U.CurryVal.value (fn args)) := by
  intro parts
  induction parts with
  | nil => intro acc _ _ _ hne _; exact absurd rfl hne
  | cons c cs ih =>
    intro acc hp hacc hn hne hlt
    by_cases hcs : cs = []
    · subst hcs
      simp only [List.flatten_cons, List.flatten_nil, List.append_nil] at hacc
      have hlen : n ≤ (acc ++ c).length := by rw [hacc, hn]
      simp [U.applyCalls, U.curriedCall, hlen, hacc]
      omega
    · have hflatpos : 1 ≤ cs.flatten.length := by
        cases cs with
        | nil => exact absurd rfl hcs
        | cons d ds =>
          have hd : d ≠ [] := hp d (List.mem_cons_of_mem _ (List.mem_cons_self d ds))
          have : d.length ≥ 1 := by
            cases d with
            | nil => exact absurd rfl hd
            | cons e es => simp
          simp only [List.flatten_cons, List.length_append]
          omega
      have hlt2 : (acc ++ c).length < n := by
        have harith : args.length = acc.length + c.length + cs.flatten.length := by
          rw [← hacc]
          simp [List.length_append]
          omega
        simp only [List.length_append]
        omega
      have hnotle : ¬ (n ≤ (acc ++ c).length) := not_le.mpr hlt2
      simp only [U.applyCalls, U.curriedCall, hnotle, if_neg hnotle]
      exact ih (acc ++ c) (fun p hp2 => hp p (List.mem_cons_of_mem _ hp2))
        (by rw [List.append_assoc]; simpa using hacc) hn hcs hlt2

/-- C2: for a function of declared arity `n` and `n` arguments split
across any sequence of calls (each passing at least one of the remaining
arguments, in order), the `_.curry` wrapper returns exactly the result of
applying the function to the whole argument list at once. -/
theorem curry_partition (n : Nat) (fn : List JsValue → JsValue) (args : List JsValue)
    (parts : List (List JsValue)) (hjoin : parts.flatten = args)
    (hlen : args.length = n) (hne : parts ≠ []) (hparts : ∀ p ∈ parts, p ≠ []) :
    U.applyCalls n fn (U.CurryVal.closure []) parts
      = some (U.CurryVal.value (fn args)) := by
  have hargs : args ≠ [] := by
    cases parts with
    | nil => exact absurd rfl hne
    | cons p ps =>
      have hpne : p ≠ [] := hparts p (List.mem_cons_self p ps)
      intro h0
      rw [← hjoin] at h0
      simp at h0
      exact hpne h0.1
  apply applyCalls_complete n fn args parts [] hparts (by simpa using hjoin) hlen hne
  have := List.length_pos.mpr hargs
  simpa [hlen] using by omega

/-- Witness for C2: arity 3, the partition `(1)(2, 3)`. -/
theorem curry_partition_witness :
    ([[JsValue.num 1], [JsValue.num 2, JsValue.num 3]] : List (List JsValue)).flatten
        = [JsValue.num 1, JsValue.num 2, JsValue.num 3]
    ∧ U.applyCalls 3 (fun l => JsValue.arr l) (U.CurryVal.closure [])
        [[JsValue.num 1], [JsValue.num 2, JsValue.num 3]]
      = some (U.CurryVal.value (JsValue.arr [JsValue.num 1, JsValue.num 2, JsValue.num 3])) :=
  ⟨by simp, curry_partition 3 (fun l => JsValue.arr l)
      [JsValue.num 1, JsValue.num 2, JsValue.num 3]
      [[JsValue.num 1], [JsValue.num 2, JsValue.num 3]]
      (by simp) (by simp) (by simp) (by simp)⟩

/-! ## Debouncing -/

/-- C5: when every call to the `_.debounce(func, wait)` wrapper arrives
strictly less than `wait` after the previous one, the underlying function
fires exactly once, `wait` after the final call and with the final call
arguments. -/
theorem debounce_fires_last {α : Type} (wait : Nat) (calls : List (Nat × α))
    (t : Nat) (a : α) (hlast : calls.getLast? = some (t, a))
    (hgap : calls.Chain' (fun p q => q.1 < p.1 + wait)) :
    U.debounceFires wait calls = [(t + wait, a)] := by
  induction calls with
  | nil => simp at hlast
  | cons c rest ih =>
    cases rest with
    | nil =>
      simp at hlast
      cases c
      simp at hlast
      simp [U.debounceFires, hlast]
    | cons c2 rest2 =>
      obtain ⟨h12, htail⟩ := List.chain'_cons.mp hgap
      have hlt : ¬ (c.1 + wait ≤ c2.1) := by omega
      rw [List.getLast?_cons_cons] at hlast
      cases c with
      | mk t1 a1 =>
        cases c2 with
        | mk t2 a2 =>
          simp only [U.debounceFires]
          rw [if_neg (by simpa using hlt)]
          simpa using ih hlast htail

/-- Witness for C5: five calls at 50ms intervals with `wait = 100`; only
the last call fires, at time 300 with its own argument. -/
theorem debounce_fires_last_witness :
    ([((0 : Nat), (1 : Nat)), (50, 2), (100, 3), (150, 4), (200, 5)].getLast? = some (200, 5))
    ∧ U.debounceFires 100 [((0 : Nat), (1 : Nat)), (50, 2), (100, 3), (150, 4), (200, 5)]
        = [(300, 5)] :=
  ⟨by simp, debounce_fires_last 100 _ 200 5 (by simp) (by norm_num [List.chain'_cons])⟩

/-! ## Palindromes -/

/-- C6 counterexample: the source only guards against non-strings, so the
empty string compares equal to its own reverse and is reported a
palindrome, contradicting the claim that the empty string yields false. -/
theorem isPalindrome_empty_cex :
    U.isPalindrome (JsValue.str "") = JsValue.bool true
      ∧ U.isPalindrome (JsValue.str "") ≠ JsValue.bool false :=
  ⟨rfl, by rw [show U.isPalindrome (JsValue.str "") = JsValue.bool true from rfl]; simp⟩

/-- C6 as amended: every non-string yields false, and every string —
including the empty string — yields true exactly when the string obtained
by removing the non-alphanumeric characters and lower-casing equals its
own reverse. -/
theorem isPalindrome_spec :
    (∀ v : JsValue, (∀ s, v ≠ JsValue.str s) → U.isPalindrome v = JsValue.bool false)
    ∧ ∀ s : String,
        U.isPalindrome (JsValue.str s)
          = JsValue.bool (decide ((s.toList.filter isAlnumChar).map asciiLower
              = ((s.toList.filter isAlnumChar).map asciiLower).reverse)) := by
  constructor
  · intro v hv
    cases v <;> first | rfl | exact absurd rfl (hv _)
  · intro s
    have hcomm : (s.toList.map asciiLower).filter isLowerAlnum
        = (s.toList.filter isAlnumChar).map asciiLower := by
      rw [List.filter_map]
      rfl
    show JsValue.bool (decide ((s.toList.map asciiLower).filter isLowerAlnum
        = ((s.toList.map asciiLower).filter isLowerAlnum).reverse)) = _
    rw [hcomm]

/-- Witness for C6 at a non-string input and at the string `"Aba"`. -/
theorem isPalindrome_spec_witness :
    U.isPalindrome JsValue.null = JsValue.bool false
      ∧ U.isPalindrome (JsValue.str "Aba") = JsValue.bool true :=
  ⟨isPalindrome_spec.1 JsValue.null (by simp),
   (isPalindrome_spec.2 "Aba").trans rfl⟩

/-! ## Wrong-type inputs -/

/-- C3 counterexample: `_.last` on a non-array returns `undefined`, which
is none of the benign defaults the claim enumerates (empty string, empty
array, empty object, NaN, false). -/
theorem last_undefined_cex :
    U.last JsValue.null = JsValue.undefined
      ∧ JsValue.undefined ≠ JsValue.str "" ∧ JsValue.undefined ≠ JsValue.arr []
      ∧ JsValue.undefined ≠ JsValue.obj [] ∧ JsValue.undefined ≠ JsValue.nan
      ∧ JsValue.undefined ≠ JsValue.bool false :=
  ⟨rfl, by simp, by simp, by simp, by simp, by simp⟩

/-- C3 as amended: every string helper returns the empty string (false
for the palindrome test) on non-strings, every array helper returns the
empty array (false for `includes`, NaN for `mean`, undefined for `last`)
on non-arrays, and every object helper returns its empty container on
null or non-objects; in the embedding all of these are total functions,
so no exception is possible. -/
theorem helpers_wrong_type_defaults :
    (∀ (v : JsValue) (len : Int) (suf : String), (∀ s, v ≠ JsValue.str s) →
        U.capitalize v = JsValue.str "" ∧ U.truncate v len suf = JsValue.str ""
          ∧ U.kebabCase v = JsValue.str "" ∧ U.isPalindrome v = JsValue.bool false)
    ∧ (∀ (v x : JsValue) (vs : List JsValue) (m : Nat), (∀ xs, v ≠ JsValue.arr xs) →
        U.last v = JsValue.undefined ∧ U.includes v x = JsValue.bool false
          ∧ U.without v vs = JsValue.arr [] ∧ U.chunk v m = JsValue.arr []
          ∧ U.unique v = JsValue.arr [] ∧ U.mean v = JsValue.nan)
    ∧ (∀ (v : JsValue) (ks : List String), (v = JsValue.null ∨ v.typeOf ≠ "object") →
        U.keys v = JsValue.arr [] ∧ U.values v = JsValue.arr []
          ∧ U.pick v ks = JsValue.obj [] ∧ U.«omit» v ks = JsValue.obj []) := by
  refine ⟨?_, ?_, ?_⟩
  · intro v len suf hv
    cases v <;> first | exact ⟨rfl, rfl, rfl, rfl⟩ | exact absurd rfl (hv _)
  · intro v x vs m hv
    cases v <;> first | exact ⟨rfl, rfl, rfl, rfl, rfl, rfl⟩ | exact absurd rfl (hv _)
  · intro v ks hv
    cases v with
    | obj fs =>
      rcases hv with h | h
      · exact absurd h (by simp)
      · exact absurd rfl h
    | arr xs =>
      rcases hv with h | h
      · exact absurd h (by simp)
      · exact absurd rfl h
    | date t =>
      rcases hv with h | h
      · exact absurd h (by simp)
      · exact absurd rfl h
    | null => exact ⟨rfl, rfl, rfl, rfl⟩
    | undefined => exact ⟨rfl, rfl, rfl, rfl⟩
    | nan => exact ⟨rfl, rfl, rfl, rfl⟩
    | bool b => exact ⟨rfl, rfl, rfl, rfl⟩
    | num q => exact ⟨rfl, rfl, rfl, rfl⟩
    | str s => exact ⟨rfl, rfl, rfl, rfl⟩
    | builtin name => exact ⟨rfl, rfl, rfl, rfl⟩

/-- Witness for C3 at concrete wrong-typed inputs. -/
theorem helpers_wrong_type_defaults_witness :
    U.capitalize (JsValue.num 5) = JsValue.str ""
      ∧ U.mean JsValue.null = JsValue.nan
      ∧ U.pick JsValue.null ["a"] = JsValue.obj [] :=
  ⟨(helpers_wrong_type_defaults.1 (JsValue.num 5) 30 "..." (by simp)).1,
   (helpers_wrong_type_defaults.2.1 JsValue.null JsValue.null [] 1 (by simp)).2.2.2.2.2,
   (helpers_wrong_type_defaults.2.2 JsValue.null ["a"] (Or.inl rfl)).2.2.1⟩

/-! ## Picking and prototype properties -/

/-- C7: `_.pick` tests key membership with the `in` operator, which walks
the prototype chain, so picking the inherited key `toString` from a plain
object returns an object carrying the inherited built-in even though
`toString` is not an own enumerable key — contradicting the claim (and
the Python-dict comprehension documented above the source function);
`_.omit`, by contrast, iterates `Object.keys` and keeps own keys only. -/
theorem pick_includes_inherited_property :
    U.pick (JsValue.obj [("a", JsValue.num 1)]) ["toString"]
      = JsValue.obj [("toString", JsValue.builtin "toString")]
    ∧ ¬ ("toString" ∈ U.jsOwnKeys (JsValue.obj [("a", JsValue.num 1)]))
    ∧ U.«omit» (JsValue.obj [("a", JsValue.num 1)]) ["toString"]
      = JsValue.obj [("a", JsValue.num 1)] :=
  ⟨rfl, by decide, rfl⟩

/-! ## Deep cloning -/

theorem deepCloneList_eq_of (m : Nat)
    (ih : ∀ v : JsValue, sizeOf v ≤ m → U.deepClone v = v) :
    ∀ xs : List JsValue, sizeOf xs ≤ m → U.deepCloneList xs = xs := by
  intro xs
  induction xs with
  | nil => intro _; rfl
  | cons x rest ihr =>
    intro h
    simp only [List.cons.sizeOf_spec] at h
    have h1 : sizeOf x ≤ m := by omega
    have h2 : sizeOf rest ≤ m := by omega
    simp [U.deepCloneList, ih x h1, ihr h2]

theorem deepCloneFields_eq_of (m : Nat)
    (ih : ∀ v : JsValue, sizeOf v ≤ m → U.deepClone v = v) :
    ∀ fs : List (String × JsValue), sizeOf fs ≤ m → U.deepCloneFields fs = fs := by
  intro fs
  induction fs with
  | nil => intro _; rfl
  | cons p rest ihr =>
    intro h
    rcases p with ⟨k, v⟩
    simp only [List.cons.sizeOf_spec, Prod.mk.sizeOf_spec] at h
    have h1 : sizeOf v ≤ m := by omega
    have h2 : sizeOf rest ≤ m := by omega
    simp [U.deepCloneFields, ih v h1, ihr h2]

theorem deepClone_id_aux : ∀ (m : Nat) (v : JsValue), sizeOf v ≤ m → U.deepClone v = v := by
  intro m
  induction m with
  | zero => intro v h; cases v <;> simp at h
  | succ m ihm =>
    intro v h
    cases v with
    | arr xs =>
      simp only [JsValue.arr.sizeOf_spec] at h
      have hx : sizeOf xs ≤ m := by omega
      simp [U.deepClone, deepCloneList_eq_of m ihm xs hx]
    | obj fs =>
      simp only [JsValue.obj.sizeOf_spec] at h
      have hf : sizeOf fs ≤ m := by omega
      simp [U.deepClone, deepCloneFields_eq_of m ihm fs hf]
    | null => rfl
    | undefined => rfl
    | nan => rfl
    | bool b => rfl
    | num q => rfl
    | str s => rfl
    | date t => rfl
    | builtin name => rfl

/-- C10: on every modelled acyclic value — primitives, null, dates,
arrays, plain objects of own enumerable properties — `_.deepClone`
returns a structurally equal value: in a heap-free model structural
equality is equality, dates keep their timestamp, arrays clone
elementwise in order, and objects clone each own binding. -/
theorem deepClone_structural_identity (v : JsValue) : U.deepClone v = v :=
  deepClone_id_aux (sizeOf v) v le_rfl

